import Mathlib

/-!
# TrelloApp — verification of the ordering core

Shallow embedding, in Lean 4, of the ordering core of the TrelloApp
repository: the position utility (`src/lib/position.ts`), the card move
endpoint (`PATCH /api/cards/[id]/move`), card creation
(`POST /api/cards`), the socket room fan-out (`initializeSocket`), the
client board store's `moveCard` action, and the standalone kanban board's
`handleDrop`.  Positions in the Prisma schema are `Int`; they are embedded
as `Int`.  The arguments of `calculateNewPosition` are JavaScript numbers
used for fractional midpoints; they are embedded as `ℚ`.
-/

namespace TrelloApp

/-- A row of the `cards` table, restricted to the fields the move and
create endpoints read or write: `id` (primary key), `listId`, and the
ordering field `position : Int`.  The Prisma `Card` model declares no
version counter. -/
structure Card where
  id : String
  listId : String
  position : Int
deriving DecidableEq, Repr

/-- `src/lib/position.ts`, `calculateNewPosition`: the four branches in
source order (only `after` → `after / 2`; only `before` → `before + 1000`;
both → arithmetic mean; neither → `1000`). -/
def calculateNewPosition : Option ℚ → Option ℚ → ℚ
  | none, some a => a / 2
  | some b, none => b + 1000
  | some b, some a => (b + a) / 2
  | none, none => 1000

/-- `prisma.card.updateMany({where: p, data: f})` on the card table:
every row satisfying `p` is rewritten by `f`, the rest are untouched. -/
def updateMany (p : Card → Prop) [DecidablePred p] (f : Card → Card)
    (db : List Card) : List Card :=
  db.map fun c => if p c then f c else c

/-- `prisma.card.findUnique({where: {id}})`: first row with the given id. -/
def findCard (db : List Card) (cardId : String) : Option Card :=
  db.find? fun c => c.id = cardId

/-- The sibling shifts of the `$transaction` in
`PATCH /api/cards/[id]/move`, acting on the card table, given the moved
card's current `listId` (`sourceListId`) and `position`
(`sourcePosition`) as read before the transaction.  Same list: shift the
rows strictly between the old and new position toward the vacated slot.
Different list: close the gap in the source list and open one in the
destination list. -/
def moveShiftOnly (sourceListId destinationListId : String)
    (sourcePosition newPosition : Int) (db : List Card) : List Card :=
  if sourceListId = destinationListId then
    if newPosition > sourcePosition then
      updateMany
        (fun c => c.listId = sourceListId ∧
          sourcePosition < c.position ∧ c.position ≤ newPosition)
        (fun c => { c with position := c.position - 1 }) db
    else if newPosition < sourcePosition then
      updateMany
        (fun c => c.listId = sourceListId ∧
          newPosition ≤ c.position ∧ c.position < sourcePosition)
        (fun c => { c with position := c.position + 1 }) db
    else db
  else
    let db1 := updateMany
      (fun c => c.listId = sourceListId ∧ c.position > sourcePosition)
      (fun c => { c with position := c.position - 1 }) db
    updateMany
      (fun c => c.listId = destinationListId ∧ c.position ≥ newPosition)
      (fun c => { c with position := c.position + 1 }) db1

/-- The two transactional card writes of the move endpoint combined: the
conditional sibling shifts followed by the moved row's own update. -/
def moveCardShift (cardId sourceListId destinationListId : String)
    (sourcePosition newPosition : Int) (db : List Card) : List Card :=
  updateMany (fun c => c.id = cardId)
    (fun c => { c with listId := destinationListId, position := newPosition })
    (moveShiftOnly sourceListId destinationListId sourcePosition newPosition
      db)

/-- `PATCH /api/cards/[id]/move` restricted to the card table: resolve the
card (404 when absent), then run the transaction body.  `none` models the
404 response, under which nothing is written. -/
def moveCardTx (cardId destinationListId : String) (newPosition : Int)
    (db : List Card) : Option (List Card) :=
  match findCard db cardId with
  | none => none
  | some card =>
      some (moveCardShift cardId card.listId destinationListId
        card.position newPosition db)

/-- `POST /api/cards`: the stored position is the requested one when the
body carries a `position`, otherwise the current count of cards in the
list; the new row is appended to the table. -/
def createCard (id listId : String) (requestedPosition : Option Int)
    (db : List Card) : List Card :=
  let position := requestedPosition.getD
    ((db.filter fun c => c.listId = listId).length : Int)
  db ++ [{ id := id, listId := listId, position := position }]

/-- The per-parent ordering invariant: two cards of the same list never
share a position (equivalently, the siblings of every list are strictly
ordered by `position`). -/
def PosOk (db : List Card) : Prop :=
  db.Pairwise fun a b => a.listId = b.listId → a.position ≠ b.position

instance : DecidablePred PosOk := fun db =>
  inferInstanceAs (Decidable (db.Pairwise fun a b : Card =>
    a.listId = b.listId → a.position ≠ b.position))

/-- Primary keys are unique: no two rows of the card table share an id. -/
def IdsOk (db : List Card) : Prop :=
  (db.map Card.id).Nodup

instance : DecidablePred IdsOk := fun db =>
  List.nodupDecidable (db.map Card.id)

/-- An ordered item carrying a fractional order key, for the allocator
scenario (`calculateNewPosition` works on JavaScript numbers used as
fractional midpoints; embedded as `ℚ`). -/
structure QItem where
  id : String
  position : ℚ
deriving DecidableEq, Repr

/-- Modelled from the spec: `MoveItem(itemId, ..., beforeId, afterId)`
expressed against a single collection.  The repository has no
neighbor-id–based move endpoint (its `PATCH /api/cards/[id]/move` takes a
dense integer index), so the lookup-and-reposition wrapper follows the
spec's words; the position itself comes from the source
`calculateNewPosition`. -/
def moveItemBetween (items : List QItem) (itemId beforeId afterId : String) :
    List QItem :=
  let beforePos := (items.find? fun c => c.id = beforeId).map QItem.position
  let afterPos := (items.find? fun c => c.id = afterId).map QItem.position
  let newPos := calculateNewPosition beforePos afterPos
  items.map fun c => if c.id = itemId then { c with position := newPos } else c

/-- Items sorted ascending by their order key: the visible order. -/
def visibleOrder (items : List QItem) : List String :=
  (items.insertionSort fun a b => a.position ≤ b.position).map QItem.id

/-- The write performed on a single row by the cross-list branch of the
move transaction (`sourceListId ≠ destinationListId`), read off from the
three sequential writes of the `$transaction`: the moved row gets the new
list and position; source-list rows after the vacated position close the
gap; destination-list rows at or after the insertion position open one;
every other row is untouched. -/
def crossMoveWrite (cardId sourceListId destinationListId : String)
    (sourcePosition newPosition : Int) (c : Card) : Card :=
  if c.id = cardId then
    { c with listId := destinationListId, position := newPosition }
  else if c.listId = sourceListId ∧ c.position > sourcePosition then
    { c with position := c.position - 1 }
  else if c.listId = destinationListId ∧ c.position ≥ newPosition then
    { c with position := c.position + 1 }
  else c

/-- The write performed on a single row by the move transaction, all
branches combined (same-list moving down, same-list moving up, same-list
no-op, cross-list), read off from the sequential `updateMany`/`update`
writes of the `$transaction`. -/
def moveWrite (cardId sourceListId destinationListId : String)
    (sourcePosition newPosition : Int) (c : Card) : Card :=
  if c.id = cardId then
    { c with listId := destinationListId, position := newPosition }
  else if sourceListId = destinationListId then
    if newPosition > sourcePosition then
      if c.listId = sourceListId ∧ sourcePosition < c.position ∧
          c.position ≤ newPosition then
        { c with position := c.position - 1 }
      else c
    else if newPosition < sourcePosition then
      if c.listId = sourceListId ∧ newPosition ≤ c.position ∧
          c.position < sourcePosition then
        { c with position := c.position + 1 }
      else c
    else c
  else
    if c.listId = sourceListId ∧ c.position > sourcePosition then
      { c with position := c.position - 1 }
    else if c.listId = destinationListId ∧ c.position ≥ newPosition then
      { c with position := c.position + 1 }
    else c

/-- The position `POST /api/cards` stores:
`validatedData.position ?? count({listId})`. -/
def assignedPosition (listId : String) (requestedPosition : Option Int)
    (db : List Card) : Int :=
  requestedPosition.getD ((db.filter fun c => c.listId = listId).length : Int)

/-- A committed write operation on the card table: card creation
(`POST /api/cards`) or a card move (`PATCH /api/cards/[id]/move`). -/
inductive TableOp where
  | create (id listId : String) (requestedPosition : Option Int)
  | move (cardId destinationListId : String) (newPosition : Int)

/-- The committed card table after an operation; a move whose card lookup
fails (404) commits nothing. -/
def applyOp : TableOp → List Card → List Card
  | .create id listId p, db => createCard id listId p db
  | .move cardId dest np, db => (moveCardTx cardId dest np db).getD db

/-- Validity of a requested operation against the current table: a move's
`newPosition` lies in the valid index range of the destination list
(`moveCardSchema` already enforces `0 ≤ newPosition`); a creation's
assigned position does not collide with an existing sibling position —
which the default (the sibling count) guarantees whenever the list is
densely numbered `0..n-1`. -/
def OpOk : TableOp → List Card → Prop
  | .create _ listId p, db => ∀ c ∈ db, c.listId = listId →
      c.position ≠ assignedPosition listId p db
  | .move _ dest np, db =>
      0 ≤ np ∧ np ≤ ((db.filter fun c => c.listId = dest).length : Int)

instance (op : TableOp) (db : List Card) : Decidable (OpOk op db) :=
  match op with
  | .create _ listId p => inferInstanceAs (Decidable (∀ c ∈ db,
      c.listId = listId → c.position ≠ assignedPosition listId p db))
  | .move _ dest np => inferInstanceAs (Decidable (0 ≤ np ∧
      np ≤ ((db.filter fun c => c.listId = dest).length : Int)))


/-- The activity row written by the move transaction
(`tx.activity.create`), restricted to the metadata fields the move
writes: action, card, and from/to list and position. -/
structure Activity where
  action : String
  cardId : String
  fromListId : String
  fromPosition : Int
  toListId : String
  toPosition : Int
deriving DecidableEq, Repr

/-- The stored state the move transaction touches: the card table and the
activity table. -/
structure AppState where
  cards : List Card
  activities : List Activity
deriving DecidableEq, Repr

/-- `tx.card.update({where: {id}, data: {listId, position}})`: a unique
update that throws — aborting the surrounding transaction — when no row
has the id (e.g. the card was deleted concurrently between the
endpoint's pre-read and the transaction). -/
def updateCardById (cardId destinationListId : String) (newPosition : Int)
    (db : List Card) : Option (List Card) :=
  match findCard db cardId with
  | none => none
  | some _ => some (updateMany (fun c => c.id = cardId)
      (fun c =>
        { c with listId := destinationListId, position := newPosition })
      db)

/-- The body of `prisma.$transaction` in the move endpoint: sibling
shifts, the moved row's update, and the activity record, sequenced;
`none` when a step throws. -/
def moveCardTxBody (cardId destinationListId : String) (newPosition : Int)
    (sourceListId : String) (sourcePosition : Int) (s : AppState) :
    Option AppState :=
  let shifted := moveShiftOnly sourceListId destinationListId
    sourcePosition newPosition s.cards
  match updateCardById cardId destinationListId newPosition shifted with
  | none => none
  | some cards' => some
      { cards := cards',
        activities := s.activities ++
          [{ action := "moved", cardId := cardId,
             fromListId := sourceListId, fromPosition := sourcePosition,
             toListId := destinationListId, toPosition := newPosition }] }

/-- `prisma.$transaction` semantics applied to the move body: the
transaction is all-or-nothing — on success the new state is committed, on
any failure the stored state is rolled back unchanged. -/
def moveCardTransaction (cardId destinationListId : String)
    (newPosition : Int) (sourceListId : String) (sourcePosition : Int)
    (s : AppState) : AppState :=
  (moveCardTxBody cardId destinationListId newPosition sourceListId
    sourcePosition s).getD s

/-- A connection-lifecycle event at the socket server, from
`initializeSocket`: a `board:join` message, a `board:leave` message, or a
native disconnect. -/
inductive RoomEvent where
  | join (boardId handle : String)
  | leave (boardId handle : String)
  | disconnect (handle : String)

/-- socket.io's in-memory room registry, as the set of
`(boardId, socket id)` pairs (the handler keys rooms by the template
`board:` ++ boardId, an injective renaming that is dropped here):
`socket.join` adds the pair if absent, `socket.leave` removes it, and a
disconnect removes the socket from every room. -/
def stepRoom (reg : List (String × String)) :
    RoomEvent → List (String × String)
  | .join b h => if (b, h) ∈ reg then reg else reg ++ [(b, h)]
  | .leave b h => reg.filter fun p => p ≠ (b, h)
  | .disconnect h => reg.filter fun p => p.2 ≠ h

/-- The room registry built up by a history of lifecycle events. -/
def roomsAfter (events : List RoomEvent) : List (String × String) :=
  events.foldl stepRoom []

/-- The sockets currently in a board's room. -/
def roomMembers (reg : List (String × String)) (boardId : String) :
    List String :=
  (reg.filter fun p => p.1 = boardId).map Prod.snd

/-- The `card:moved` handler of `initializeSocket`:
`socket.to(\x60board:${boardId}\x60).emit('card:moved', data)` — socket.io
`to(room).emit` delivers the payload to every socket in the room except
the emitting one. -/
def publishCardMoved (reg : List (String × String))
    (boardId sender : String) : List String :=
  (roomMembers reg boardId).filter fun h => h ≠ sender

/-- A handle is currently joined to a board's room, read directly off the
event history (scanned from the most recent event backwards): a join of
the pair occurs, with no later leave of the pair and no later disconnect
of the handle. -/
def joinedRev (boardId handle : String) : List RoomEvent → Prop
  | [] => False
  | .join b h :: rest => (b = boardId ∧ h = handle) ∨
      joinedRev boardId handle rest
  | .leave b h :: rest => ¬(b = boardId ∧ h = handle) ∧
      joinedRev boardId handle rest
  | .disconnect h :: rest => h ≠ handle ∧ joinedRev boardId handle rest

/-- `CurrentlyJoined events b h`: after the history `events`, connection
`h` is joined to board `b`'s room. -/
def CurrentlyJoined (events : List RoomEvent) (boardId handle : String) :
    Prop :=
  joinedRev boardId handle events.reverse

/-- A card as held by the client board store (`useBoardStore`),
restricted to the fields its `moveCard` action touches. -/
structure ClientCard where
  id : String
  listId : String
  position : Int
deriving DecidableEq, Repr

/-- The store's `cards : Record<string, Card[]>` — cards grouped by list
id — as an insertion-ordered association list, matching the record's key
iteration order. -/
abbrev CardGroups := List (String × List ClientCard)

/-- `findIndex` plus `splice(index, 1)`: remove the first element
satisfying the predicate, returning it with the remaining list; `none`
when no element matches. -/
def extractFirst (p : ClientCard → Bool) :
    List ClientCard → Option (ClientCard × List ClientCard)
  | [] => none
  | c :: rest =>
      if p c then some (c, rest)
      else (extractFirst p rest).map fun x => (x.1, c :: x.2)

/-- The removal loop of the store's `moveCard`: walk the record's keys in
insertion order and splice out the first card with the given id. -/
def removeCardById (cardId : String) :
    CardGroups → Option (ClientCard × CardGroups)
  | [] => none
  | (k, l) :: rest =>
      match extractFirst (fun c => c.id = cardId) l with
      | some (c, l') => some (c, (k, l') :: rest)
      | none => (removeCardById cardId rest).map fun x =>
          (x.1, (k, l) :: x.2)

/-- Whether the record has an entry for the key. -/
def hasKey (k : String) (m : CardGroups) : Bool :=
  m.any fun e => e.1 = k

/-- The guard `if (!state.cards[newListId]) state.cards[newListId] = []`:
a missing key is created (appended in insertion order). -/
def ensureKey (k : String) (m : CardGroups) : CardGroups :=
  if hasKey k m then m else m ++ [(k, [])]

/-- Assignment through `state.cards[k]`: rewrite the entry of key `k`
(keys of a JS record are unique; the first entry is the one read and
written). -/
def updateKey (k : String) (f : List ClientCard → List ClientCard) :
    CardGroups → CardGroups
  | [] => []
  | (k', l) :: rest =>
      if k' = k then (k', f l) :: rest else (k', l) :: updateKey k f rest

/-- `splice(newPosition, 0, card)`: insertion at an index, clamped to the
list length. -/
def spliceInsert (i : Nat) (c : ClientCard) (l : List ClientCard) :
    List ClientCard :=
  l.take i ++ c :: l.drop i

/-- The renumbering pass `forEach((c, index) => c.position = index)`,
with the running index explicit. -/
def renumberFrom (i : Int) : List ClientCard → List ClientCard
  | [] => []
  | c :: rest => { c with position := i } :: renumberFrom (i + 1) rest

/-- The `moveCard` action of `useBoardStore` (also the client's apply
step for an incoming `card:moved` broadcast, via `useRealtimeBoard`'s
`moveCard(data.cardId, data.destListId, data.newPosition)`): splice the
card out of whichever list holds it; if found, rewrite its `listId` and
`position`, create the destination entry if missing, splice the card in
at `newPosition`, and renumber the destination list by index. -/
def moveCard (cardId newListId : String) (newPosition : Nat)
    (m : CardGroups) : CardGroups :=
  match removeCardById cardId m with
  | none => m
  | some (c, m') =>
      let c : ClientCard :=
        { c with listId := newListId, position := (newPosition : Int) }
      updateKey newListId
        (fun l => renumberFrom 0 (spliceInsert newPosition c l))
        (ensureKey newListId m')

/-- The number of cards with a given id across the whole store. -/
def countCard (cardId : String) (m : CardGroups) : Nat :=
  ((m.map Prod.snd).flatten).countP fun c => c.id = cardId

/-- The identity of a card apart from its position: renumbering changes
only positions. -/
def cardShape (c : ClientCard) : String × String :=
  (c.id, c.listId)

/-- A task of the standalone kanban board (`kanban-board.tsx`); only its
id takes part in the drag-and-drop logic. -/
structure Task where
  id : String
  title : String
deriving DecidableEq, Repr

/-- A column of the standalone kanban board. -/
structure Column where
  id : String
  title : String
  tasks : List Task
deriving DecidableEq, Repr

/-- `handleDrop` of `kanban-board.tsx`, given the dragged task and its
source column id (the `draggedTask` state): a drop onto the source
column clears the drag state and leaves the columns unchanged; a drop
onto a different column maps over the columns, filtering the dragged
task's id out of the source column's tasks and appending the task at the
end of the target column's tasks. -/
def handleDrop (columns : List Column) (task : Task)
    (sourceColumnId targetColumnId : String) : List Column :=
  if sourceColumnId = targetColumnId then columns
  else columns.map fun col =>
    if col.id = sourceColumnId then
      { col with tasks := col.tasks.filter fun x => x.id ≠ task.id }
    else if col.id = targetColumnId then
      { col with tasks := col.tasks ++ [task] }
    else col

/-- The per-column write of a cross-column drop. -/
def dropWrite (task : Task) (sourceColumnId targetColumnId : String)
    (col : Column) : Column :=
  if col.id = sourceColumnId then
    { col with tasks := col.tasks.filter fun x => x.id ≠ task.id }
  else if col.id = targetColumnId then
    { col with tasks := col.tasks ++ [task] }
  else col

/-- Every task on the board, across all columns. -/
def allTasks (columns : List Column) : List Task :=
  (columns.map Column.tasks).flatten

end TrelloApp

namespace TrelloApp

/-- C3 — counterexample.  The pair `before = after = 1` admits no key
strictly between its endpoints, yet `calculateNewPosition` does not fail:
it returns the key `1`, which is not strictly between the neighbors.  The
function is total and the repository defines no `PrecisionExhausted`
signal. -/
theorem calculateNewPosition_exhausted_pair_returns_key :
    calculateNewPosition (some 1) (some 1) = 1 ∧
    ¬ (1 < calculateNewPosition (some 1) (some 1) ∧
        calculateNewPosition (some 1) (some 1) < 1) := by
  norm_num [calculateNewPosition]

/-- C3 — amended.  Position allocation never fails: `calculateNewPosition`
is total, and on any pair with no value strictly between the neighbors
(equal neighbors) it returns the shared neighbor value itself — a key
colliding with both neighbors — instead of a `PrecisionExhausted`
signal. -/
theorem calculateNewPosition_total_on_exhausted_pairs :
    ∀ q : ℚ, calculateNewPosition (some q) (some q) = q := by
  intro q
  show (q + q) / 2 = q
  ring

/-- C4: with both neighbors present and `before < after`,
`calculateNewPosition` returns their arithmetic mean, strictly between
them; concretely, for `[A pos=1, B pos=2, C pos=3]`, moving `C` between
`A` and `B` gives `C` position `3/2`, strictly between `1` and `2`, and
the visible order becomes `[A, C, B]`. -/
theorem calculateNewPosition_mean_strictly_between :
    (∀ b a : ℚ, b < a →
      calculateNewPosition (some b) (some a) = (b + a) / 2 ∧
      b < calculateNewPosition (some b) (some a) ∧
      calculateNewPosition (some b) (some a) < a) ∧
    moveItemBetween [⟨"A", 1⟩, ⟨"B", 2⟩, ⟨"C", 3⟩] "C" "A" "B" =
      [⟨"A", 1⟩, ⟨"B", 2⟩, ⟨"C", 3 / 2⟩] ∧
    visibleOrder [⟨"A", 1⟩, ⟨"B", 2⟩, ⟨"C", 3 / 2⟩] = ["A", "C", "B"] ∧
    (1 : ℚ) < 3 / 2 ∧ (3 / 2 : ℚ) < 2 := by
  refine ⟨fun b a h => ⟨rfl, ?_, ?_⟩, ?_, ?_, by norm_num, by norm_num⟩
  · show b < (b + a) / 2
    linarith
  · show (b + a) / 2 < a
    linarith
  · simp only [moveItemBetween, List.find?_cons_of_pos,
      List.find?_cons_of_neg, List.map, decide_eq_true_eq, String.reduceEq,
      ne_eq, not_false_iff]
    norm_num [calculateNewPosition]
  · norm_num [visibleOrder, List.insertionSort, List.orderedInsert]

/-- Witness for `calculateNewPosition_mean_strictly_between` at
`before = 1`, `after = 2`. -/
theorem calculateNewPosition_mean_strictly_between_witness :
    calculateNewPosition (some 1) (some 2) = (1 + 2) / 2 ∧
    (1 : ℚ) < calculateNewPosition (some 1) (some 2) ∧
    calculateNewPosition (some 1) (some 2) < 2 :=
  calculateNewPosition_mean_strictly_between.1 1 2 (by norm_num)

/-- C5 — counterexample.  The head-insert contract fails at the key
`after = 0` (a position the dense scheme actually uses): with `before`
absent, `calculateNewPosition` returns `0 / 2 = 0`, which is not strictly
less than `after`. -/
theorem calculateNewPosition_head_insert_at_zero :
    calculateNewPosition none (some 0) = 0 ∧
    ¬ calculateNewPosition none (some 0) < 0 := by
  norm_num [calculateNewPosition]

/-- C5 — amended.  Endpoint contract of `calculateNewPosition`: both
neighbors absent gives the fixed default `1000`; with only `after`
present the result `after / 2` is strictly less than `after` provided
`0 < after`; with only `before` present the result `before + 1000` is
strictly greater than `before` unconditionally. -/
theorem calculateNewPosition_endpoint_contract :
    calculateNewPosition none none = 1000 ∧
    (∀ a : ℚ, 0 < a → calculateNewPosition none (some a) < a) ∧
    (∀ b : ℚ, b < calculateNewPosition (some b) none) := by
  refine ⟨rfl, fun a ha => ?_, fun b => ?_⟩
  · show a / 2 < a
    linarith
  · show b < b + 1000
    linarith

/-- Witness for `calculateNewPosition_endpoint_contract` at `after = 2`
and `before = 5`. -/
theorem calculateNewPosition_endpoint_contract_witness :
    calculateNewPosition none (some 2) < 2 ∧
    (5 : ℚ) < calculateNewPosition (some 5) none :=
  ⟨calculateNewPosition_endpoint_contract.2.1 2 (by norm_num),
    calculateNewPosition_endpoint_contract.2.2 5⟩

/-- On the cross-list branch (`sourceListId ≠ destinationListId`) the
whole transaction body is one row-wise map of `crossMoveWrite` over the
card table: the three sequential writes touch disjoint rows. -/
theorem moveCardShift_cross_eq_map (cardId sourceListId destinationListId :
    String) (sourcePosition newPosition : Int) (db : List Card)
    (h : sourceListId ≠ destinationListId) :
    moveCardShift cardId sourceListId destinationListId sourcePosition
      newPosition db =
      db.map (crossMoveWrite cardId sourceListId destinationListId
        sourcePosition newPosition) := by
  unfold moveCardShift moveShiftOnly updateMany
  simp only [if_neg h, List.map_map]
  apply List.map_congr_left
  intro c _
  simp only [Function.comp_apply]
  unfold crossMoveWrite
  split_ifs <;> simp_all

/-- C2 — counterexample.  Moving card `A` out of list `L1` into list `L2`
writes more rows than the moved one: sibling `B` in the source list is
decremented from position `1` to `0`, and `C` in the destination list is
incremented from `0` to `1`. -/
theorem cross_list_move_writes_other_rows :
    moveCardTx "A" "L2" 0
      [⟨"A", "L1", 0⟩, ⟨"B", "L1", 1⟩, ⟨"C", "L2", 0⟩] =
      some [⟨"A", "L2", 0⟩, ⟨"B", "L1", 0⟩, ⟨"C", "L2", 1⟩] ∧
    findCard [⟨"A", "L2", 0⟩, ⟨"B", "L1", 0⟩, ⟨"C", "L2", 1⟩] "B" ≠
      findCard [⟨"A", "L1", 0⟩, ⟨"B", "L1", 1⟩, ⟨"C", "L2", 0⟩] "B" := by
  decide

/-- C2 — amended.  A cross-list move is a single row-wise map: the moved
row gets the destination list and position; source-list siblings above
the vacated position are decremented; destination-list rows at or above
the insertion position are incremented; and every row of every unrelated
list is left unchanged. -/
theorem cross_list_move_frame
    (cardId destinationListId : String) (newPosition : Int)
    (db : List Card) (card : Card)
    (hfind : findCard db cardId = some card)
    (hcross : card.listId ≠ destinationListId) :
    moveCardTx cardId destinationListId newPosition db =
      some (db.map (crossMoveWrite cardId card.listId destinationListId
        card.position newPosition)) ∧
    (∀ c : Card, c.id ≠ cardId → c.listId ≠ card.listId →
      c.listId ≠ destinationListId →
      crossMoveWrite cardId card.listId destinationListId card.position
        newPosition c = c) ∧
    (∀ c : Card, c.id ≠ cardId → c.listId = card.listId →
      crossMoveWrite cardId card.listId destinationListId card.position
        newPosition c =
        if card.position < c.position then
          { c with position := c.position - 1 } else c) ∧
    (∀ c : Card, c.id ≠ cardId → c.listId = destinationListId →
      crossMoveWrite cardId card.listId destinationListId card.position
        newPosition c =
        if newPosition ≤ c.position then
          { c with position := c.position + 1 } else c) := by
  refine ⟨?_, ?_, ?_, ?_⟩
  · unfold moveCardTx
    rw [hfind]
    simp only [moveCardShift_cross_eq_map _ _ _ _ _ _ hcross]
  · intro c h1 h2 h3
    unfold crossMoveWrite
    split_ifs <;> simp_all
  · intro c h1 h2
    unfold crossMoveWrite
    split_ifs <;> simp_all
  · intro c h1 h2
    unfold crossMoveWrite
    split_ifs <;> simp_all

/-- Witness for `cross_list_move_frame`: card `A` moved from `L1` to the
head of `L2` in a three-card table. -/
theorem cross_list_move_frame_witness :
    moveCardTx "A" "L2" 0
      [⟨"A", "L1", 0⟩, ⟨"B", "L1", 1⟩, ⟨"C", "L2", 0⟩] =
      some ([⟨"A", "L1", 0⟩, ⟨"B", "L1", 1⟩, ⟨"C", "L2", 0⟩].map
        (crossMoveWrite "A" "L1" "L2" 0 0)) :=
  (cross_list_move_frame "A" "L2" 0
    [⟨"A", "L1", 0⟩, ⟨"B", "L1", 1⟩, ⟨"C", "L2", 0⟩] ⟨"A", "L1", 0⟩
    (by decide) (by decide)).1

end TrelloApp

namespace TrelloApp

/-- Uniqueness of primary keys: two rows with the same id coincide. -/
theorem card_unique {db : List Card} (hids : IdsOk db) {a b : Card}
    (ha : a ∈ db) (hb : b ∈ db) (h : a.id = b.id) : a = b :=
  List.inj_on_of_nodup_map hids ha hb h

/-- `PosOk` gives distinct positions for any two distinct same-list rows,
in either order. -/
theorem posOk_pair {db : List Card} (hpos : PosOk db) {a b : Card}
    (ha : a ∈ db) (hb : b ∈ db) (hne : a ≠ b) :
    a.listId = b.listId → a.position ≠ b.position := by
  have hsym : Symmetric fun a b : Card =>
      a.listId = b.listId → a.position ≠ b.position := by
    intro x y h hxy
    exact fun he => (h hxy.symm he.symm).elim
  exact hpos.forall hsym ha hb hne

/-- The whole transaction body of the move endpoint is one row-wise map
of `moveWrite` over the card table: its sequential bulk writes touch
disjoint rows. -/
theorem moveCardShift_eq_map (cardId sourceListId destinationListId :
    String) (sourcePosition newPosition : Int) (db : List Card) :
    moveCardShift cardId sourceListId destinationListId sourcePosition
      newPosition db =
      db.map (moveWrite cardId sourceListId destinationListId
        sourcePosition newPosition) := by
  unfold moveCardShift moveShiftOnly updateMany
  by_cases h : sourceListId = destinationListId
  · by_cases h1 : newPosition > sourcePosition
    · simp only [if_pos h, if_pos h1, List.map_map]
      apply List.map_congr_left
      intro c _
      simp only [Function.comp_apply]
      unfold moveWrite
      split_ifs <;> simp_all
    · by_cases h2 : newPosition < sourcePosition
      · simp only [if_pos h, if_neg h1, if_pos h2, List.map_map]
        apply List.map_congr_left
        intro c _
        simp only [Function.comp_apply]
        unfold moveWrite
        split_ifs <;> simp_all
      · simp only [if_pos h, if_neg h1, if_neg h2]
        apply List.map_congr_left
        intro c _
        unfold moveWrite
        split_ifs <;> simp_all
  · simp only [if_neg h, List.map_map]
    apply List.map_congr_left
    intro c _
    simp only [Function.comp_apply]
    unfold moveWrite
    split_ifs <;> simp_all

set_option maxHeartbeats 1000000 in
/-- After a move, the moved row's position differs from every other
same-list row's: the other row either vacated the slot by shifting or was
never at `newPosition`. -/
theorem moveWrite_moved_vs_other (cardId destinationListId : String)
    (newPosition : Int) (a b : Card)
    (haid : a.id = cardId) (hbid : b.id ≠ cardId)
    (hsb : b.listId = a.listId → b.position ≠ a.position) :
    (moveWrite cardId a.listId destinationListId a.position newPosition
        a).listId =
      (moveWrite cardId a.listId destinationListId a.position newPosition
        b).listId →
    (moveWrite cardId a.listId destinationListId a.position newPosition
        a).position ≠
      (moveWrite cardId a.listId destinationListId a.position newPosition
        b).position := by
  unfold moveWrite
  rw [if_pos haid, if_neg hbid]
  intro hl
  by_cases h2 : b.listId = a.listId <;>
    by_cases h3 : a.listId = destinationListId <;>
      by_cases h5 : b.listId = destinationListId <;>
        split_ifs at hl ⊢ <;> simp_all <;> omega

set_option maxHeartbeats 1000000 in
/-- After a move, two non-moved same-list rows keep distinct positions:
the shifts translate disjoint position ranges by one without merging
them. -/
theorem moveWrite_other_vs_other (cardId sourceListId destinationListId :
    String) (sourcePosition newPosition : Int) (a b : Card)
    (haid : a.id ≠ cardId) (hbid : b.id ≠ cardId)
    (hab : a.listId = b.listId → a.position ≠ b.position)
    (hsa : a.listId = sourceListId → a.position ≠ sourcePosition)
    (hsb : b.listId = sourceListId → b.position ≠ sourcePosition) :
    (moveWrite cardId sourceListId destinationListId sourcePosition
        newPosition a).listId =
      (moveWrite cardId sourceListId destinationListId sourcePosition
        newPosition b).listId →
    (moveWrite cardId sourceListId destinationListId sourcePosition
        newPosition a).position ≠
      (moveWrite cardId sourceListId destinationListId sourcePosition
        newPosition b).position := by
  unfold moveWrite
  rw [if_neg haid, if_neg hbid]
  intro hl
  by_cases h1 : a.listId = sourceListId <;>
    by_cases h2 : b.listId = sourceListId <;>
      by_cases h3 : sourceListId = destinationListId <;>
        by_cases h4 : a.listId = destinationListId <;>
          by_cases h5 : b.listId = destinationListId <;>
            split_ifs at hl ⊢ <;> simp_all <;> omega

/-- The move transaction preserves the per-list ordering invariant, for
any destination and any `newPosition`. -/
theorem moveWrite_preserves_posOk (cardId destinationListId : String)
    (newPosition : Int) (db : List Card) (card : Card)
    (hids : IdsOk db) (hpos : PosOk db)
    (hfind : findCard db cardId = some card) :
    PosOk (db.map (moveWrite cardId card.listId destinationListId
      card.position newPosition)) := by
  have hmem : card ∈ db := List.mem_of_find?_eq_some hfind
  have hcid : card.id = cardId := by
    have := List.find?_some hfind
    simpa using this
  have hsp : ∀ c ∈ db, c.id ≠ cardId → c.listId = card.listId →
      c.position ≠ card.position := by
    intro c hc hne
    refine posOk_pair hpos hc hmem fun he => hne ?_
    rw [he, hcid]
  rw [PosOk, List.pairwise_map]
  refine hpos.imp_of_mem ?_
  intro a b ha hb hab
  by_cases haid : a.id = cardId <;> by_cases hbid : b.id = cardId
  · have ha' : a = card := card_unique hids ha hmem (haid.trans hcid.symm)
    have hb' : b = card := card_unique hids hb hmem (hbid.trans hcid.symm)
    rw [ha', hb'] at hab
    exact absurd rfl (hab rfl)
  · have ha' : a = card := card_unique hids ha hmem (haid.trans hcid.symm)
    subst ha'
    exact moveWrite_moved_vs_other cardId destinationListId newPosition a b
      haid hbid (hsp b hb hbid)
  · have hb' : b = card := card_unique hids hb hmem (hbid.trans hcid.symm)
    subst hb'
    intro hl he
    exact moveWrite_moved_vs_other cardId destinationListId newPosition b a
      hbid haid (hsp a ha haid) hl.symm he.symm
  · exact moveWrite_other_vs_other cardId card.listId destinationListId
      card.position newPosition a b haid hbid hab (hsp a ha haid)
      (hsp b hb hbid)

end TrelloApp

namespace TrelloApp

/-- C1 — counterexample.  Creating a card with a requested position that
lies inside the valid index range of the destination list breaks the
sibling-order invariant: on the table `[A@("L",0), B@("L",1)]`, which
satisfies the invariant, `POST /api/cards` with `position = 0` (within
the valid insert range `0..2`, and accepted by `createCardSchema`)
appends a third row at position `0`, duplicating `A`'s position — the
creation route performs no sibling shifting. -/
theorem create_in_range_breaks_sibling_order :
    PosOk [⟨"A", "L", 0⟩, ⟨"B", "L", 1⟩] ∧
    IdsOk [⟨"A", "L", 0⟩, ⟨"B", "L", 1⟩] ∧
    (0 : Int) ≤ 0 ∧ (0 : Int) ≤ 2 ∧
    createCard "C" "L" (some 0) [⟨"A", "L", 0⟩, ⟨"B", "L", 1⟩] =
      [⟨"A", "L", 0⟩, ⟨"B", "L", 1⟩, ⟨"C", "L", 0⟩] ∧
    ¬ PosOk (createCard "C" "L" (some 0) [⟨"A", "L", 0⟩, ⟨"B", "L", 1⟩]) := by
  decide

/-- C1 — amended.  On a table with unique ids whose lists satisfy the
sibling-order invariant, any committed operation preserves the invariant
provided the operation is valid for the current table: a move needs only
`newPosition` within the destination's index range (in fact any integer
works), while a creation needs its assigned position — the requested one,
or the sibling count by default — to differ from every existing sibling
position (the default is fresh whenever the list is densely numbered). -/
theorem committed_operation_preserves_sibling_order (op : TableOp)
    (db : List Card) (hids : IdsOk db) (hpos : PosOk db)
    (hok : OpOk op db) : PosOk (applyOp op db) := by
  cases op with
  | create id listId p =>
      show PosOk (createCard id listId p db)
      unfold createCard
      rw [PosOk, List.pairwise_append]
      refine ⟨hpos, List.pairwise_singleton _ _, ?_⟩
      intro a ha b hb
      simp only [List.mem_singleton] at hb
      subst hb
      intro hli
      exact hok a ha hli
  | move cardId dest np =>
      show PosOk ((moveCardTx cardId dest np db).getD db)
      unfold moveCardTx
      cases hfind : findCard db cardId with
      | none => exact hpos
      | some card =>
          simp only [Option.getD_some]
          rw [moveCardShift_eq_map]
          exact moveWrite_preserves_posOk cardId dest np db card hids hpos
            hfind

/-- Witness for `committed_operation_preserves_sibling_order`: the
cross-list move of `A` from `L1` to the head of `L2` on a three-card
table with the invariant. -/
theorem committed_operation_preserves_sibling_order_witness :
    PosOk (applyOp (TableOp.move "A" "L2" 0)
      [⟨"A", "L1", 0⟩, ⟨"B", "L1", 1⟩, ⟨"C", "L2", 0⟩]) :=
  committed_operation_preserves_sibling_order (TableOp.move "A" "L2" 0)
    [⟨"A", "L1", 0⟩, ⟨"B", "L1", 1⟩, ⟨"C", "L2", 0⟩]
    (by decide) (by decide) (by decide)

end TrelloApp

namespace TrelloApp

/-- `moveWrite` never changes a row's id. -/
theorem moveWrite_id (cardId sourceListId destinationListId : String)
    (sourcePosition newPosition : Int) (c : Card) :
    (moveWrite cardId sourceListId destinationListId sourcePosition
      newPosition c).id = c.id := by
  unfold moveWrite
  split_ifs <;> rfl

/-- Row lookup by id commutes with an id-preserving row-wise map. -/
theorem findCard_map_of_id_preserved (g : Card → Card)
    (hg : ∀ c, (g c).id = c.id) (db : List Card) (cardId : String) :
    findCard (db.map g) cardId = (findCard db cardId).map g := by
  induction db with
  | nil => rfl
  | cons h t ih =>
      unfold findCard at *
      by_cases hh : h.id = cardId
      · rw [List.map_cons, List.find?_cons_of_pos, List.find?_cons_of_pos]
        · simp
        · simp [hh]
        · simp [hg, hh]
      · rw [List.map_cons, List.find?_cons_of_neg, List.find?_cons_of_neg,
          ih]
        · simp [hh]
        · simp [hg, hh]

/-- C6: the move is all-or-nothing.  If any step of the transaction body
fails, the committed state is the original one — no shifted positions,
no moved card, no activity row are visible; if the body succeeds, the
sibling shifts, the moved row's update, and the activity record are
committed together in the single resulting state. -/
theorem move_transaction_atomic (cardId destinationListId sourceListId :
    String) (newPosition sourcePosition : Int) (s : AppState) :
    (moveCardTxBody cardId destinationListId newPosition sourceListId
        sourcePosition s = none →
      moveCardTransaction cardId destinationListId newPosition
        sourceListId sourcePosition s = s) ∧
    (∀ s', moveCardTxBody cardId destinationListId newPosition
        sourceListId sourcePosition s = some s' →
      moveCardTransaction cardId destinationListId newPosition
        sourceListId sourcePosition s = s' ∧
      s'.cards = moveCardShift cardId sourceListId destinationListId
        sourcePosition newPosition s.cards ∧
      s'.activities = s.activities ++
        [{ action := "moved", cardId := cardId,
           fromListId := sourceListId, fromPosition := sourcePosition,
           toListId := destinationListId,
           toPosition := newPosition }]) := by
  constructor
  · intro h
    unfold moveCardTransaction
    rw [h]
    rfl
  · intro s' h
    have htr : moveCardTransaction cardId destinationListId newPosition
        sourceListId sourcePosition s = s' := by
      unfold moveCardTransaction
      rw [h]
      rfl
    refine ⟨htr, ?_⟩
    unfold moveCardTxBody updateCardById at h
    simp only [] at h
    cases hf : findCard (moveShiftOnly sourceListId destinationListId
        sourcePosition newPosition s.cards) cardId with
    | none =>
        rw [hf] at h
        simp at h
    | some c =>
        rw [hf] at h
        simp only [Option.some.injEq] at h
        subst h
        exact ⟨rfl, rfl⟩

/-- Witness for `move_transaction_atomic`: a failing body (the card is
absent from the table) commits nothing, and a succeeding one commits the
moved card together with its activity row. -/
theorem move_transaction_atomic_witness :
    moveCardTransaction "X" "L2" 0 "L1" 0 ⟨[], []⟩ = ⟨[], []⟩ ∧
    moveCardTransaction "A" "L2" 0 "L1" 0 ⟨[⟨"A", "L1", 0⟩], []⟩ =
      ⟨[⟨"A", "L2", 0⟩], [⟨"moved", "A", "L1", 0, "L2", 0⟩]⟩ :=
  ⟨(move_transaction_atomic "X" "L2" "L1" 0 0 ⟨[], []⟩).1 (by decide),
   ((move_transaction_atomic "A" "L2" "L1" 0 0 ⟨[⟨"A", "L1", 0⟩], []⟩).2
      ⟨[⟨"A", "L2", 0⟩], [⟨"moved", "A", "L1", 0, "L2", 0⟩]⟩
      (by decide)).1⟩

/-- C7 — counterexample.  A committed move need not change the stored
card at all: moving `A` to its own list at its own position succeeds
(the transaction commits and records the activity row), yet the stored
card table is bit-identical to what it was — so no stored field of the
moved card (the `Card` model has `id`, `listId`, `position` and no
version counter) is incremented by the commit, and the endpoint's
response, the re-fetched row, carries no new version either. -/
theorem committed_move_changes_no_stored_field :
    moveCardTransaction "A" "L" 0 "L" 0 ⟨[⟨"A", "L", 0⟩], []⟩ =
      ⟨[⟨"A", "L", 0⟩], [⟨"moved", "A", "L", 0, "L", 0⟩]⟩ ∧
    (moveCardTransaction "A" "L" 0 "L" 0 ⟨[⟨"A", "L", 0⟩], []⟩).cards =
      [⟨"A", "L", 0⟩] ∧
    moveCardTxBody "A" "L" 0 "L" 0 ⟨[⟨"A", "L", 0⟩], []⟩ ≠ none := by
  decide

/-- C7 — amended.  A successful move rewrites the moved row to exactly
the original record with `listId` and `position` replaced — the `Card`
row has no other mutable field, in particular no version counter to
increment — and leaves the table's row count unchanged. -/
theorem move_writes_only_list_and_position (cardId destinationListId :
    String) (newPosition : Int) (db db' : List Card) (card : Card)
    (hfind : findCard db cardId = some card)
    (htx : moveCardTx cardId destinationListId newPosition db = some db') :
    findCard db' cardId =
      some { card with listId := destinationListId, position := newPosition } ∧
    db'.length = db.length := by
  unfold moveCardTx at htx
  rw [hfind] at htx
  have hdb' := Option.some.inj htx
  subst hdb'
  rw [moveCardShift_eq_map]
  have hcid : card.id = cardId := by
    have := List.find?_some hfind
    simpa using this
  constructor
  · rw [findCard_map_of_id_preserved _
      (moveWrite_id cardId card.listId destinationListId card.position
        newPosition), hfind]
    simp only [Option.map_some', Option.some.injEq]
    unfold moveWrite
    rw [if_pos hcid]
  · exact List.length_map _ _

/-- Witness for `move_writes_only_list_and_position`: the cross-list move
of `A` from `L1` to the head of `L2`. -/
theorem move_writes_only_list_and_position_witness :
    findCard [⟨"A", "L2", 0⟩, ⟨"B", "L1", 0⟩] "A" = some ⟨"A", "L2", 0⟩ ∧
    ([⟨"A", "L2", 0⟩, ⟨"B", "L1", 0⟩] : List Card).length =
      ([⟨"A", "L1", 0⟩, ⟨"B", "L1", 1⟩] : List Card).length := by
  have h := move_writes_only_list_and_position "A" "L2" 0
    [⟨"A", "L1", 0⟩, ⟨"B", "L1", 1⟩]
    [⟨"A", "L2", 0⟩, ⟨"B", "L1", 0⟩] ⟨"A", "L1", 0⟩ (by decide) (by decide)
  simpa using h

end TrelloApp

namespace TrelloApp

/-- A single lifecycle event updates room membership pointwise: a join
adds exactly its pair, a leave removes exactly its pair, a disconnect
removes the handle from every room. -/
theorem mem_stepRoom (reg : List (String × String)) (e : RoomEvent)
    (b h : String) :
    (b, h) ∈ stepRoom reg e ↔
      match e with
      | .join b' h' => (b = b' ∧ h = h') ∨ (b, h) ∈ reg
      | .leave b' h' => ¬(b = b' ∧ h = h') ∧ (b, h) ∈ reg
      | .disconnect h' => h ≠ h' ∧ (b, h) ∈ reg := by
  cases e with
  | join b' h' =>
      simp only [stepRoom]
      split_ifs with hmem
      · constructor
        · intro hr
          exact Or.inr hr
        · rintro (⟨rfl, rfl⟩ | hr)
          · exact hmem
          · exact hr
      · simp only [List.mem_append, List.mem_singleton, Prod.mk.injEq]
        tauto
  | leave b' h' =>
      simp only [stepRoom, List.mem_filter, decide_eq_true_eq, ne_eq,
        Prod.mk.injEq]
      tauto
  | disconnect h' =>
      simp only [stepRoom, List.mem_filter, decide_eq_true_eq, ne_eq]
      tauto

/-- Registry membership coincides with the joined-and-not-left reading of
the event history. -/
theorem mem_roomsAfter_iff (events : List RoomEvent) (b h : String) :
    (b, h) ∈ roomsAfter events ↔ CurrentlyJoined events b h := by
  induction events using List.reverseRecOn with
  | nil => simp [roomsAfter, CurrentlyJoined, joinedRev]
  | append_singleton es e ih =>
      unfold roomsAfter CurrentlyJoined at *
      rw [List.foldl_append, List.reverse_append]
      simp only [List.foldl_cons, List.foldl_nil, List.reverse_singleton,
        List.singleton_append]
      rw [mem_stepRoom]
      cases e with
      | join b' h' =>
          simp [joinedRev, ih]
          tauto
      | leave b' h' =>
          simp [joinedRev, ih]
          tauto
      | disconnect h' =>
          simp [joinedRev, ih]
          tauto

/-- C8: after any history of joins, leaves and disconnects, publishing a
`card:moved` result to a board room delivers it to a connection exactly
when that connection is currently joined to that board's room and is not
the originating connection — every other room member receives it, the
originator does not, and no connection outside the room does. -/
theorem card_moved_broadcast_reaches_exactly_other_members
    (events : List RoomEvent) (boardId sender handle : String) :
    handle ∈ publishCardMoved (roomsAfter events) boardId sender ↔
      (CurrentlyJoined events boardId handle ∧ handle ≠ sender) := by
  unfold publishCardMoved roomMembers
  simp only [List.mem_filter, List.mem_map, decide_eq_true_eq, ne_eq]
  rw [← mem_roomsAfter_iff]
  constructor
  · rintro ⟨⟨⟨pb, ph⟩, ⟨hp, hp1⟩, hp2⟩, hs⟩
    dsimp only at hp1 hp2
    subst hp1
    subst hp2
    exact ⟨hp, hs⟩
  · rintro ⟨hmem, hs⟩
    exact ⟨⟨(boardId, handle), ⟨hmem, rfl⟩, rfl⟩, hs⟩

end TrelloApp

namespace TrelloApp

theorem extractFirst_eq_none {p : ClientCard → Bool}
    {l : List ClientCard} (h : ∀ c ∈ l, p c = false) :
    extractFirst p l = none := by
  induction l with
  | nil => rfl
  | cons c rest ih =>
      unfold extractFirst
      rw [if_neg, ih]
      · rfl
      · intro x hx
        exact h x (List.mem_cons_of_mem _ hx)
      · simp [h c (List.mem_cons_self _ _)]

theorem extractFirst_some {p : ClientCard → Bool} {l : List ClientCard}
    {c : ClientCard} {l' : List ClientCard}
    (h : extractFirst p l = some (c, l')) :
    p c = true ∧ ∃ T D, l = T ++ c :: D ∧ l' = T ++ D ∧
      ∀ x ∈ T, p x = false := by
  induction l generalizing l' with
  | nil => exact absurd h (by simp [extractFirst])
  | cons a rest ih =>
      unfold extractFirst at h
      by_cases ha : p a
      · rw [if_pos ha] at h
        have h2 := Option.some.inj h
        have h3 : a = c := congrArg Prod.fst h2
        have h4 : rest = l' := congrArg Prod.snd h2
        subst h3
        subst h4
        exact ⟨ha, [], rest, rfl, rfl, by simp⟩
      · rw [if_neg ha] at h
        rw [Option.map_eq_some'] at h
        obtain ⟨⟨c₀, l₀⟩, hrec, heq⟩ := h
        have h3 : c₀ = c := congrArg Prod.fst heq
        have h4 : a :: l₀ = l' := congrArg Prod.snd heq
        subst h3
        obtain ⟨hpc, T, D, hl, hl2, hT⟩ := ih hrec
        subst hl
        refine ⟨hpc, a :: T, D, rfl, ?_, ?_⟩
        · rw [← h4, hl2]
          rfl
        · intro x hx
          rcases List.mem_cons.mp hx with rfl | hx
          · simpa using ha
          · exact hT x hx

theorem extractFirst_append {p : ClientCard → Bool} {T : List ClientCard}
    (h : ∀ x ∈ T, p x = false) {c : ClientCard} (hc : p c = true)
    (D : List ClientCard) :
    extractFirst p (T ++ c :: D) = some (c, T ++ D) := by
  induction T with
  | nil =>
      rw [List.nil_append, List.nil_append]
      unfold extractFirst
      rw [if_pos hc]
  | cons a T₀ ih =>
      have ha : p a = false := h a (List.mem_cons_self _ _)
      rw [List.cons_append, List.cons_append]
      unfold extractFirst
      rw [if_neg (by simp [ha]),
        ih fun x hx => h x (List.mem_cons_of_mem _ hx)]
      rfl

theorem removeCardById_append {cardId : String} {M₁ : CardGroups}
    (h : ∀ e ∈ M₁, ∀ x ∈ e.2, x.id ≠ cardId)
    {k : String} {l l' : List ClientCard} {c : ClientCard}
    (hl : extractFirst (fun x => x.id = cardId) l = some (c, l'))
    (M₂ : CardGroups) :
    removeCardById cardId (M₁ ++ (k, l) :: M₂) =
      some (c, M₁ ++ (k, l') :: M₂) := by
  induction M₁ with
  | nil =>
      rw [List.nil_append, List.nil_append]
      unfold removeCardById
      rw [hl]
  | cons e M₀ ih =>
      obtain ⟨k₀, l₀⟩ := e
      rw [List.cons_append, List.cons_append]
      unfold removeCardById
      rw [extractFirst_eq_none fun x hx => by
          simpa using h _ (List.mem_cons_self _ _) x hx,
        ih fun e he x hx => h e (List.mem_cons_of_mem _ he) x hx]
      rfl

theorem extractFirst_none_forall {p : ClientCard → Bool}
    {l : List ClientCard} (h : extractFirst p l = none) :
    ∀ c ∈ l, p c = false := by
  induction l with
  | nil => simp
  | cons a rest ih =>
      unfold extractFirst at h
      by_cases ha : p a
      · rw [if_pos ha] at h
        exact absurd h (by simp)
      · rw [if_neg ha] at h
        intro c hc
        rcases List.mem_cons.mp hc with rfl | hc
        · simpa using ha
        · exact ih (by simpa using h) c hc

theorem removeCardById_some {cardId : String} {m : CardGroups}
    {c : ClientCard} {m' : CardGroups}
    (h : removeCardById cardId m = some (c, m')) :
    c.id = cardId ∧ ∃ M₁ k l l' M₂, m = M₁ ++ (k, l) :: M₂ ∧
      m' = M₁ ++ (k, l') :: M₂ ∧
      (∀ e ∈ M₁, ∀ x ∈ e.2, x.id ≠ cardId) ∧
      extractFirst (fun x => x.id = cardId) l = some (c, l') := by
  induction m generalizing m' with
  | nil => exact absurd h (by simp [removeCardById])
  | cons e rest ih =>
      obtain ⟨k₀, l₀⟩ := e
      unfold removeCardById at h
      cases hex : extractFirst (fun x => x.id = cardId) l₀ with
      | some x =>
          obtain ⟨c₀, l₀'⟩ := x
          rw [hex] at h
          have h2 := Option.some.inj h
          have h3 : c₀ = c := congrArg Prod.fst h2
          have h4 : (k₀, l₀') :: rest = m' := congrArg Prod.snd h2
          subst h3
          refine ⟨by simpa using (extractFirst_some hex).1,
            [], k₀, l₀, l₀', rest, rfl, h4.symm, by simp, hex⟩
      | none =>
          rw [hex] at h
          rw [Option.map_eq_some'] at h
          obtain ⟨⟨c₀, m₀⟩, hrec, heq⟩ := h
          have h3 : c₀ = c := congrArg Prod.fst heq
          have h4 : (k₀, l₀) :: m₀ = m' := congrArg Prod.snd heq
          subst h3
          obtain ⟨hcid, M₁, k, l, l', M₂, hm, hm', hM₁, hl⟩ := ih hrec
          subst hm
          refine ⟨hcid, (k₀, l₀) :: M₁, k, l, l', M₂, rfl, ?_, ?_, hl⟩
          · rw [← h4, hm']
            rfl
          · intro e he x hx
            rcases List.mem_cons.mp he with rfl | he
            · have := extractFirst_none_forall hex x hx
              simpa using this
            · exact hM₁ e he x hx

theorem countCard_remove {cardId : String} {m : CardGroups}
    {c : ClientCard} {m' : CardGroups}
    (h : removeCardById cardId m = some (c, m')) :
    countCard cardId m = countCard cardId m' + 1 := by
  obtain ⟨hcid, M₁, k, l, l', M₂, hm, hm', _, hl⟩ := removeCardById_some h
  obtain ⟨hpc, T, D, hlTD, hl', _⟩ := extractFirst_some hl
  subst hm
  subst hm'
  subst hlTD
  subst hl'
  simp [countCard, List.map_append, List.flatten_append,
    List.countP_append, List.countP_cons, hpc]
  omega

theorem countCard_zero {cardId : String} {m : CardGroups}
    (h : countCard cardId m = 0) :
    ∀ e ∈ m, ∀ x ∈ e.2, x.id ≠ cardId := by
  intro e he x hx
  have hmem : x ∈ (m.map Prod.snd).flatten := by
    rw [List.mem_flatten]
    exact ⟨e.2, List.mem_map_of_mem _ he, hx⟩
  have := List.countP_eq_zero.mp h x hmem
  simpa using this

theorem removeCardById_keys {cardId : String} {m : CardGroups}
    {c : ClientCard} {m' : CardGroups}
    (h : removeCardById cardId m = some (c, m')) :
    m'.map Prod.fst = m.map Prod.fst := by
  obtain ⟨_, M₁, k, l, l', M₂, hm, hm', _, _⟩ := removeCardById_some h
  subst hm
  subst hm'
  simp

theorem renumberFrom_append (i : Int) (l₁ l₂ : List ClientCard) :
    renumberFrom i (l₁ ++ l₂) =
      renumberFrom i l₁ ++ renumberFrom (i + l₁.length) l₂ := by
  induction l₁ generalizing i with
  | nil => simp [renumberFrom]
  | cons a rest ih =>
      simp only [List.cons_append, renumberFrom, List.length_cons]
      rw [show rest.append l₂ = rest ++ l₂ from rfl, ih]
      congr 3
      push_cast
      ring

theorem cardShape_renumberFrom (i : Int) (l : List ClientCard) :
    (renumberFrom i l).map cardShape = l.map cardShape := by
  induction l generalizing i with
  | nil => rfl
  | cons a rest ih => simp [renumberFrom, cardShape, ih]

theorem renumberFrom_congr {l₁ l₂ : List ClientCard}
    (h : l₁.map cardShape = l₂.map cardShape) (i : Int) :
    renumberFrom i l₁ = renumberFrom i l₂ := by
  induction l₁ generalizing l₂ i with
  | nil =>
      cases l₂ with
      | nil => rfl
      | cons b rest => exact absurd h (by simp)
  | cons a rest ih =>
      cases l₂ with
      | nil => exact absurd h (by simp)
      | cons b rest₂ =>
          simp only [List.map_cons, List.cons.injEq] at h
          obtain ⟨hab, hrest⟩ := h
          obtain ⟨a1, a2, a3⟩ := a
          obtain ⟨b1, b2, b3⟩ := b
          simp only [cardShape, Prod.mk.injEq] at hab
          obtain ⟨h1, h2⟩ := hab
          subst h1
          subst h2
          simp only [renumberFrom]
          rw [ih hrest]

theorem mem_renumberFrom {x : ClientCard} {i : Int} {l : List ClientCard}
    (h : x ∈ renumberFrom i l) :
    ∃ y ∈ l, x.id = y.id ∧ x.listId = y.listId := by
  induction l generalizing i with
  | nil => exact absurd h (by simp [renumberFrom])
  | cons a rest ih =>
      rcases List.mem_cons.mp h with rfl | h
      · exact ⟨a, List.mem_cons_self _ _, rfl, rfl⟩
      · obtain ⟨y, hy, hxy⟩ := ih h
        exact ⟨y, List.mem_cons_of_mem _ hy, hxy⟩

theorem updateKey_append {k : String} {M₁ : CardGroups}
    (h : ∀ e ∈ M₁, e.1 ≠ k) (f : List ClientCard → List ClientCard)
    (l : List ClientCard) (M₂ : CardGroups) :
    updateKey k f (M₁ ++ (k, l) :: M₂) = M₁ ++ (k, f l) :: M₂ := by
  induction M₁ with
  | nil =>
      rw [List.nil_append, List.nil_append]
      unfold updateKey
      rw [if_pos rfl]
  | cons e M₀ ih =>
      obtain ⟨k₀, l₀⟩ := e
      rw [List.cons_append, List.cons_append]
      unfold updateKey
      rw [if_neg (h _ (List.mem_cons_self _ _)),
        ih fun e he => h e (List.mem_cons_of_mem _ he)]

theorem hasKey_middle (k : String) (M₁ : CardGroups)
    (l : List ClientCard) (M₂ : CardGroups) :
    hasKey k (M₁ ++ (k, l) :: M₂) = true := by
  simp [hasKey, List.any_append]

theorem split_of_hasKey {k : String} {m : CardGroups}
    (h : hasKey k m = true) :
    ∃ E₁ lE E₂, m = E₁ ++ (k, lE) :: E₂ ∧ ∀ e ∈ E₁, e.1 ≠ k := by
  induction m with
  | nil => exact absurd h (by simp [hasKey])
  | cons e rest ih =>
      obtain ⟨k₀, l₀⟩ := e
      by_cases hk : k₀ = k
      · subst hk
        exact ⟨[], l₀, rest, rfl, by simp⟩
      · have : hasKey k rest = true := by
          simpa [hasKey, hk] using h
        obtain ⟨E₁, lE, E₂, hm, hE₁⟩ := ih this
        subst hm
        refine ⟨(k₀, l₀) :: E₁, lE, E₂, rfl, ?_⟩
        intro e he
        rcases List.mem_cons.mp he with rfl | he
        · exact hk
        · exact hE₁ e he

theorem ensureKey_split {k : String} (m : CardGroups) :
    ∃ E₁ lE E₂, ensureKey k m = E₁ ++ (k, lE) :: E₂ ∧
      (∀ e ∈ E₁, e.1 ≠ k) := by
  unfold ensureKey
  by_cases h : hasKey k m = true
  · rw [if_pos h]
    exact split_of_hasKey h
  · rw [if_neg h]
    refine ⟨m, [], [], rfl, ?_⟩
    intro e he hek
    apply h
    rw [hasKey, List.any_eq_true]
    exact ⟨e, he, by simpa using hek⟩

theorem ensureKey_no_card {cardId k : String} {m : CardGroups}
    (h : ∀ e ∈ m, ∀ x ∈ e.2, x.id ≠ cardId) :
    ∀ e ∈ ensureKey k m, ∀ x ∈ e.2, x.id ≠ cardId := by
  unfold ensureKey
  split_ifs
  · exact h
  · intro e he x hx
    rcases List.mem_append.mp he with he | he
    · exact h e he x hx
    · rcases List.mem_singleton.mp he with rfl
      exact absurd hx (by simp)

theorem moveCard_second_apply (cardId newListId : String)
    (newPosition : Nat) (c : ClientCard) (hcid : c.id = cardId)
    (E₁ E₂ : CardGroups) (lE : List ClientCard)
    (hE₁ : ∀ e ∈ E₁, e.1 ≠ newListId)
    (hE₁no : ∀ e ∈ E₁, ∀ x ∈ e.2, x.id ≠ cardId)
    (hlEno : ∀ x ∈ lE, x.id ≠ cardId) :
    moveCard cardId newListId newPosition
      (E₁ ++ (newListId, renumberFrom 0 (spliceInsert newPosition
        ⟨c.id, newListId, (newPosition : Int)⟩ lE)) :: E₂) =
      E₁ ++ (newListId, renumberFrom 0 (spliceInsert newPosition
        ⟨c.id, newListId, (newPosition : Int)⟩ lE)) :: E₂ := by
  have hgl : renumberFrom 0 (spliceInsert newPosition
      ⟨c.id, newListId, (newPosition : Int)⟩ lE) =
      renumberFrom 0 (lE.take newPosition) ++
        (⟨c.id, newListId, ((lE.take newPosition).length : Int)⟩ ::
          renumberFrom (((lE.take newPosition).length : Int) + 1)
            (lE.drop newPosition)) := by
    rw [show spliceInsert newPosition
        ⟨c.id, newListId, (newPosition : Int)⟩ lE =
        lE.take newPosition ++
          (⟨c.id, newListId, (newPosition : Int)⟩ : ClientCard) ::
            lE.drop newPosition from rfl]
    rw [renumberFrom_append]
    simp [renumberFrom]
  have hRTno : ∀ x ∈ renumberFrom 0 (lE.take newPosition),
      (decide (x.id = cardId)) = false := by
    intro x hx
    obtain ⟨y, hy, hxy, _⟩ := mem_renumberFrom hx
    have : y.id ≠ cardId := hlEno y (List.take_subset _ _ hy)
    simp [hxy, this]
  have hextract : extractFirst (fun x => x.id = cardId)
      (renumberFrom 0 (spliceInsert newPosition
        ⟨c.id, newListId, (newPosition : Int)⟩ lE)) =
      some (⟨c.id, newListId, ((lE.take newPosition).length : Int)⟩,
        renumberFrom 0 (lE.take newPosition) ++
          renumberFrom (((lE.take newPosition).length : Int) + 1)
            (lE.drop newPosition)) := by
    rw [hgl]
    exact extractFirst_append hRTno (by simp [hcid]) _
  have hrem2 : removeCardById cardId
      (E₁ ++ (newListId, renumberFrom 0 (spliceInsert newPosition
        ⟨c.id, newListId, (newPosition : Int)⟩ lE)) :: E₂) =
      some (⟨c.id, newListId, ((lE.take newPosition).length : Int)⟩,
        E₁ ++ (newListId,
          renumberFrom 0 (lE.take newPosition) ++
            renumberFrom (((lE.take newPosition).length : Int) + 1)
              (lE.drop newPosition)) :: E₂) :=
    removeCardById_append hE₁no hextract E₂
  unfold moveCard
  rw [hrem2]
  show updateKey newListId
      (fun l => renumberFrom 0 (spliceInsert newPosition
        ⟨c.id, newListId, (newPosition : Int)⟩ l))
      (ensureKey newListId (E₁ ++ (newListId,
        renumberFrom 0 (lE.take newPosition) ++
          renumberFrom (((lE.take newPosition).length : Int) + 1)
            (lE.drop newPosition)) :: E₂)) =
    E₁ ++ (newListId, renumberFrom 0 (spliceInsert newPosition
      ⟨c.id, newListId, (newPosition : Int)⟩ lE)) :: E₂
  rw [show ensureKey newListId (E₁ ++ (newListId,
      renumberFrom 0 (lE.take newPosition) ++
        renumberFrom (((lE.take newPosition).length : Int) + 1)
          (lE.drop newPosition)) :: E₂) =
      E₁ ++ (newListId,
        renumberFrom 0 (lE.take newPosition) ++
          renumberFrom (((lE.take newPosition).length : Int) + 1)
            (lE.drop newPosition)) :: E₂ from by
    unfold ensureKey
    rw [if_pos (hasKey_middle _ _ _ _)]]
  rw [updateKey_append hE₁]
  have hshape : (renumberFrom 0 (lE.take newPosition) ++
      renumberFrom (((lE.take newPosition).length : Int) + 1)
        (lE.drop newPosition)).map cardShape = lE.map cardShape := by
    rw [List.map_append, cardShape_renumberFrom, cardShape_renumberFrom,
      ← List.map_append, List.take_append_drop]
  have hfin : renumberFrom 0 (spliceInsert newPosition
      ⟨c.id, newListId, (newPosition : Int)⟩
      (renumberFrom 0 (lE.take newPosition) ++
        renumberFrom (((lE.take newPosition).length : Int) + 1)
          (lE.drop newPosition))) =
      renumberFrom 0 (spliceInsert newPosition
        ⟨c.id, newListId, (newPosition : Int)⟩ lE) := by
    apply renumberFrom_congr
    unfold spliceInsert
    rw [List.map_append, List.map_append, List.map_cons, List.map_cons,
      List.map_take, List.map_take, List.map_drop, List.map_drop, hshape]
  rw [hfin]

/-- C9: applying the same incoming `card:moved` broadcast twice to the
client store produces the same state as applying it once, provided the
moved card's id occurs at most once in the store: the handler's apply
step is an upsert keyed by card id — it splices the card out of whichever
list holds it (in particular, the destination it already sits in after
the first apply), re-inserts it at the same clamped index, and renumbers
the destination by index, reproducing the same list.  (The code performs
no version comparison; idempotence comes from the id-keyed
remove-and-reinsert itself.) -/
theorem card_moved_apply_idempotent (cardId newListId : String)
    (newPosition : Nat) (m : CardGroups)
    (hcard : countCard cardId m ≤ 1) :
    moveCard cardId newListId newPosition
      (moveCard cardId newListId newPosition m) =
      moveCard cardId newListId newPosition m := by
  cases hrem : removeCardById cardId m with
  | none =>
      have h1 : moveCard cardId newListId newPosition m = m := by
        unfold moveCard
        rw [hrem]
      rw [h1, h1]
  | some x =>
      obtain ⟨c, m'⟩ := x
      have hcid : c.id = cardId := (removeCardById_some hrem).1
      have hm'count : countCard cardId m' = 0 := by
        have := countCard_remove hrem
        omega
      have hm'no : ∀ e ∈ m', ∀ x ∈ e.2, x.id ≠ cardId :=
        countCard_zero hm'count
      have hAno : ∀ e ∈ ensureKey newListId m', ∀ x ∈ e.2,
          x.id ≠ cardId := ensureKey_no_card hm'no
      obtain ⟨E₁, lE, E₂, hA, hE₁⟩ := @ensureKey_split newListId m'
      have hR : moveCard cardId newListId newPosition m =
          E₁ ++ (newListId, renumberFrom 0 (spliceInsert newPosition
            ⟨c.id, newListId, (newPosition : Int)⟩ lE)) :: E₂ := by
        unfold moveCard
        rw [hrem]
        show updateKey newListId
            (fun l => renumberFrom 0 (spliceInsert newPosition
              ⟨c.id, newListId, (newPosition : Int)⟩ l))
            (ensureKey newListId m') = _
        rw [hA, updateKey_append hE₁]
      have hE₁no : ∀ e ∈ E₁, ∀ x ∈ e.2, x.id ≠ cardId := by
        intro e he
        exact hAno e (by rw [hA]; exact List.mem_append_left _ he)
      have hlEno : ∀ x ∈ lE, x.id ≠ cardId := by
        have hmem : (newListId, lE) ∈ ensureKey newListId m' := by
          rw [hA]
          exact List.mem_append_right _ (List.mem_cons_self _ _)
        exact hAno _ hmem
      rw [hR]
      exact moveCard_second_apply cardId newListId newPosition c hcid
        E₁ E₂ lE hE₁ hE₁no hlEno

/-- Witness for `card_moved_apply_idempotent`: a two-list store, moving
`A` into `L2` at index 1, applied twice. -/
theorem card_moved_apply_idempotent_witness :
    moveCard "A" "L2" 1 (moveCard "A" "L2" 1
      [("L1", [⟨"A", "L1", 0⟩, ⟨"B", "L1", 1⟩]),
       ("L2", [⟨"C", "L2", 0⟩])]) =
      moveCard "A" "L2" 1
        [("L1", [⟨"A", "L1", 0⟩, ⟨"B", "L1", 1⟩]),
         ("L2", [⟨"C", "L2", 0⟩])] :=
  card_moved_apply_idempotent "A" "L2" 1
    [("L1", [⟨"A", "L1", 0⟩, ⟨"B", "L1", 1⟩]), ("L2", [⟨"C", "L2", 0⟩])]
    (by decide)

end TrelloApp

namespace TrelloApp

theorem filter_perm_of_unique {task : Task} {L : List Task}
    (hmem : task ∈ L)
    (hcount : L.countP (fun x => x.id = task.id) = 1) :
    List.Perm (task :: L.filter fun x => x.id ≠ task.id) L := by
  induction L with
  | nil => exact absurd hmem (by simp)
  | cons a rest ih =>
      by_cases ha : a.id = task.id
      · have hid : decide (a.id = task.id) = true := by simpa using ha
        rw [List.countP_cons, if_pos hid] at hcount
        have hrest : rest.countP (fun x => x.id = task.id) = 0 := by
          omega
        have hat : a = task := by
          rcases List.mem_cons.mp hmem with h | hmem'
          · exact h.symm
          · exfalso
            have hpos : 0 < rest.countP (fun x => x.id = task.id) :=
              List.countP_pos_iff.mpr ⟨task, hmem', by simp⟩
            omega
        rw [hat, List.filter_cons_of_neg (by simp)]
        have hfilter : rest.filter (fun x => x.id ≠ task.id) = rest :=
          List.filter_eq_self.mpr fun x hx => by
            simpa using List.countP_eq_zero.mp hrest x hx
        rw [hfilter]
      · have hmem' : task ∈ rest := by
          rcases List.mem_cons.mp hmem with h | h
          · exact absurd (congrArg Task.id h.symm) ha
          · exact h
        have hcount' : rest.countP (fun x => x.id = task.id) = 1 := by
          rw [List.countP_cons, if_neg (by simpa using ha)] at hcount
          simpa using hcount
        have hstep := ih hmem' hcount'
        rw [List.filter_cons_of_pos (by simpa using ha)]
        exact (List.Perm.swap a task _).trans (hstep.cons a)

theorem allTasks_cons (col : Column) (rest : List Column) :
    allTasks (col :: rest) = col.tasks ++ allTasks rest := by
  simp [allTasks]

theorem dropWrite_map_id {task : Task} {s t : String} {l : List Column}
    (hs : ∀ col ∈ l, col.id ≠ s) (ht : ∀ col ∈ l, col.id ≠ t) :
    l.map (dropWrite task s t) = l := by
  induction l with
  | nil => rfl
  | cons h rest ih =>
      rw [List.map_cons,
        ih (fun c hc => hs c (List.mem_cons_of_mem _ hc))
          (fun c hc => ht c (List.mem_cons_of_mem _ hc))]
      congr 1
      unfold dropWrite
      rw [if_neg (hs h (List.mem_cons_self _ _)),
        if_neg (ht h (List.mem_cons_self _ _))]

theorem dropWrite_target {task : Task} {s t : String} {l : List Column}
    (hs : ∀ col ∈ l, col.id ≠ s) (hnodup : (l.map Column.id).Nodup)
    {colT : Column} (hT : colT ∈ l) (hTid : colT.id = t) :
    List.Perm (allTasks (l.map (dropWrite task s t)))
      (task :: allTasks l) := by
  induction l with
  | nil => exact absurd hT (by simp)
  | cons h rest ih =>
      rw [List.map_cons, allTasks_cons, allTasks_cons]
      obtain ⟨hhid, hnodup'⟩ := List.nodup_cons.mp hnodup
      by_cases hht : h.id = t
      · have hrt : ∀ col ∈ rest, col.id ≠ t := by
          intro col hc he
          exact hhid (by rw [hht, ← he]; exact List.mem_map_of_mem _ hc)
        rw [dropWrite_map_id (fun c hc => hs c (List.mem_cons_of_mem _ hc))
          hrt]
        rw [show dropWrite task s t h = { h with tasks := h.tasks ++ [task] }
          from by
            unfold dropWrite
            rw [if_neg (hs h (List.mem_cons_self _ _)), if_pos hht]]
        rw [show ({ h with tasks := h.tasks ++ [task] } : Column).tasks =
          h.tasks ++ [task] from rfl]
        rw [List.append_assoc]
        exact List.perm_middle
      · have hT' : colT ∈ rest := by
          rcases List.mem_cons.mp hT with rfl | hT'
          · exact absurd hTid hht
          · exact hT'
        rw [show dropWrite task s t h = h from by
          unfold dropWrite
          rw [if_neg (hs h (List.mem_cons_self _ _)), if_neg hht]]
        have hrec := ih (fun c hc => hs c (List.mem_cons_of_mem _ hc))
          hnodup' hT'
        exact (hrec.append_left h.tasks).trans List.perm_middle

theorem dropWrite_source {task : Task} {s t : String} {l : List Column}
    (ht : ∀ col ∈ l, col.id ≠ t) (hnodup : (l.map Column.id).Nodup)
    {colS : Column} (hS : colS ∈ l) (hSid : colS.id = s)
    (hmem : task ∈ colS.tasks)
    (hcount : colS.tasks.countP (fun x => x.id = task.id) = 1) :
    List.Perm (task :: allTasks (l.map (dropWrite task s t)))
      (allTasks l) := by
  induction l with
  | nil => exact absurd hS (by simp)
  | cons h rest ih =>
      rw [List.map_cons, allTasks_cons, allTasks_cons]
      obtain ⟨hhid, hnodup'⟩ := List.nodup_cons.mp hnodup
      by_cases hhs : h.id = s
      · have hcS : colS = h := by
          rcases List.mem_cons.mp hS with rfl | hS'
          · rfl
          · refine absurd ?_ hhid
            rw [hhs, ← hSid]
            exact List.mem_map_of_mem _ hS'
        subst hcS
        have hrs : ∀ col ∈ rest, col.id ≠ s := by
          intro col hc he
          exact hhid (by rw [hhs, ← he]; exact List.mem_map_of_mem _ hc)
        rw [dropWrite_map_id hrs
          (fun c hc => ht c (List.mem_cons_of_mem _ hc))]
        rw [show dropWrite task s t colS =
          { colS with tasks := colS.tasks.filter fun x => x.id ≠ task.id }
          from by
            unfold dropWrite
            rw [if_pos hhs]]
        rw [show ({ colS with
            tasks := colS.tasks.filter fun x => x.id ≠ task.id } :
            Column).tasks = colS.tasks.filter fun x => x.id ≠ task.id
          from rfl]
        exact List.Perm.append_right _ (filter_perm_of_unique hmem hcount)
      · have hS' : colS ∈ rest := by
          rcases List.mem_cons.mp hS with rfl | hS'
          · exact absurd hSid hhs
          · exact hS'
        rw [show dropWrite task s t h = h from by
          unfold dropWrite
          rw [if_neg hhs, if_neg (ht h (List.mem_cons_self _ _))]]
        have hrec := ih (fun c hc => ht c (List.mem_cons_of_mem _ hc))
          hnodup' hS'
        exact List.perm_middle.symm.trans (hrec.append_left h.tasks)

theorem dropWrite_perm {task : Task} {s t : String} {l : List Column}
    (hst : s ≠ t) (hnodup : (l.map Column.id).Nodup)
    {colS colT : Column} (hS : colS ∈ l) (hSid : colS.id = s)
    (hT : colT ∈ l) (hTid : colT.id = t)
    (hmem : task ∈ colS.tasks)
    (hcount : colS.tasks.countP (fun x => x.id = task.id) = 1) :
    List.Perm (allTasks (l.map (dropWrite task s t))) (allTasks l) := by
  induction l with
  | nil => exact absurd hS (by simp)
  | cons h rest ih =>
      rw [List.map_cons, allTasks_cons, allTasks_cons]
      obtain ⟨hhid, hnodup'⟩ := List.nodup_cons.mp hnodup
      by_cases hhs : h.id = s
      · have hcS : colS = h := by
          rcases List.mem_cons.mp hS with rfl | hS'
          · rfl
          · refine absurd ?_ hhid
            rw [hhs, ← hSid]
            exact List.mem_map_of_mem _ hS'
        subst hcS
        have hT' : colT ∈ rest := by
          rcases List.mem_cons.mp hT with rfl | hT'
          · exact absurd (hhs.symm.trans hTid) hst
          · exact hT'
        have hrs : ∀ col ∈ rest, col.id ≠ s := by
          intro col hc he
          refine absurd ?_ hhid
          rw [hhs, ← he]
          exact List.mem_map_of_mem _ hc
        rw [show dropWrite task s t colS =
          { colS with tasks := colS.tasks.filter fun x => x.id ≠ task.id }
          from by
            unfold dropWrite
            rw [if_pos hhs]]
        rw [show ({ colS with
            tasks := colS.tasks.filter fun x => x.id ≠ task.id } :
            Column).tasks = colS.tasks.filter fun x => x.id ≠ task.id
          from rfl]
        have htgt := @dropWrite_target task s t rest hrs hnodup' colT
          hT' hTid
        refine (htgt.append_left _).trans ?_
        refine List.perm_middle.trans ?_
        exact List.Perm.append_right _ (filter_perm_of_unique hmem hcount)
      · by_cases hht : h.id = t
        · have hS' : colS ∈ rest := by
            rcases List.mem_cons.mp hS with rfl | hS'
            · exact absurd hSid hhs
            · exact hS'
          have hrt : ∀ col ∈ rest, col.id ≠ t := by
            intro col hc he
            refine absurd ?_ hhid
            rw [hht, ← he]
            exact List.mem_map_of_mem _ hc
          rw [show dropWrite task s t h =
            { h with tasks := h.tasks ++ [task] } from by
              unfold dropWrite
              rw [if_neg hhs, if_pos hht]]
          rw [show ({ h with tasks := h.tasks ++ [task] } : Column).tasks =
            h.tasks ++ [task] from rfl]
          have hsrc := @dropWrite_source task s t rest hrt hnodup' colS
            hS' hSid hmem hcount
          rw [List.append_assoc]
          refine List.Perm.append_left h.tasks ?_
          exact hsrc
        · have hS' : colS ∈ rest := by
            rcases List.mem_cons.mp hS with rfl | hS'
            · exact absurd hSid hhs
            · exact hS'
          have hT' : colT ∈ rest := by
            rcases List.mem_cons.mp hT with rfl | hT'
            · exact absurd hTid hht
            · exact hT'
          rw [show dropWrite task s t h = h from by
            unfold dropWrite
            rw [if_neg hhs, if_neg hht]]
          exact (ih hnodup' hS' hT').append_left h.tasks

/-- C10: in the kanban board's drop handler, a drop whose target column
equals the dragged task's source column leaves the columns state
unchanged; a drop onto a different column rewrites the columns pointwise,
removing the dragged task's id from the source column's task list and
appending the task at the end of the target column's list; and in the
cross-column case (given distinct column ids, the dragged task present
in the source column, and its id unique there) the multiset of tasks
across all columns is preserved. -/
theorem handleDrop_spec (columns : List Column) (task : Task)
    (sourceColumnId targetColumnId : String) (colS colT : Column)
    (hnodup : (columns.map Column.id).Nodup)
    (hst : sourceColumnId ≠ targetColumnId)
    (hS : colS ∈ columns) (hSid : colS.id = sourceColumnId)
    (hT : colT ∈ columns) (hTid : colT.id = targetColumnId)
    (hmem : task ∈ colS.tasks)
    (hcount : colS.tasks.countP (fun x => x.id = task.id) = 1) :
    (∀ u, handleDrop columns task u u = columns) ∧
    handleDrop columns task sourceColumnId targetColumnId =
      columns.map (dropWrite task sourceColumnId targetColumnId) ∧
    List.Perm
      (allTasks (handleDrop columns task sourceColumnId targetColumnId))
      (allTasks columns) := by
  have hmap : handleDrop columns task sourceColumnId targetColumnId =
      columns.map (dropWrite task sourceColumnId targetColumnId) := by
    unfold handleDrop dropWrite
    rw [if_neg hst]
  refine ⟨fun u => ?_, hmap, ?_⟩
  · unfold handleDrop
    rw [if_pos rfl]
  · rw [hmap]
    exact dropWrite_perm hst hnodup hS hSid hT hTid hmem hcount

/-- Witness for `handleDrop_spec`: dropping task `x` from column `c1`
onto `c1` (unchanged) and onto `c2` (multiset preserved). -/
theorem handleDrop_spec_witness :
    handleDrop
      [⟨"c1", "A", [⟨"x", "X"⟩, ⟨"y", "Y"⟩]⟩, ⟨"c2", "B", [⟨"z", "Z"⟩]⟩]
      ⟨"x", "X"⟩ "c1" "c1" =
      [⟨"c1", "A", [⟨"x", "X"⟩, ⟨"y", "Y"⟩]⟩,
        ⟨"c2", "B", [⟨"z", "Z"⟩]⟩] ∧
    List.Perm
      (allTasks (handleDrop
        [⟨"c1", "A", [⟨"x", "X"⟩, ⟨"y", "Y"⟩]⟩, ⟨"c2", "B", [⟨"z", "Z"⟩]⟩]
        ⟨"x", "X"⟩ "c1" "c2"))
      (allTasks
        [⟨"c1", "A", [⟨"x", "X"⟩, ⟨"y", "Y"⟩]⟩,
          ⟨"c2", "B", [⟨"z", "Z"⟩]⟩]) :=
  ⟨(handleDrop_spec
      [⟨"c1", "A", [⟨"x", "X"⟩, ⟨"y", "Y"⟩]⟩, ⟨"c2", "B", [⟨"z", "Z"⟩]⟩]
      ⟨"x", "X"⟩ "c1" "c2" ⟨"c1", "A", [⟨"x", "X"⟩, ⟨"y", "Y"⟩]⟩
      ⟨"c2", "B", [⟨"z", "Z"⟩]⟩ (by decide) (by decide)
      (by decide) (by decide) (by decide) (by decide) (by decide)
      (by decide)).1 "c1",
   (handleDrop_spec
      [⟨"c1", "A", [⟨"x", "X"⟩, ⟨"y", "Y"⟩]⟩, ⟨"c2", "B", [⟨"z", "Z"⟩]⟩]
      ⟨"x", "X"⟩ "c1" "c2" ⟨"c1", "A", [⟨"x", "X"⟩, ⟨"y", "Y"⟩]⟩
      ⟨"c2", "B", [⟨"z", "Z"⟩]⟩ (by decide) (by decide)
      (by decide) (by decide) (by decide) (by decide) (by decide)
      (by decide)).2.2⟩

end TrelloApp
